import Mathlib

/-!
Shallow embedding of the label-placement engine from
`src/src/utils/serviceRain.ts` (the core of DUGrowth/UG-Website), together
with theorems settling the frozen claims about it.

Modelling conventions:
* JS strings are `List Char`; `text.length`, `slice`, indexing, `trimEnd`
  and `replace(/^\s+/, "")` are translated to list operations.
* JS numbers used as grid coordinates are `ℤ`; fractional region bounds are
  `ℚ`; `Math.floor(a / b)` for `b > 0` is `Int.fdiv a b`.
* The occupied `Set<string>` keyed by `"col,row"` is a `List (ℤ × ℤ)` with
  set-insert semantics (`addCell`); the key format is injective on pairs of
  integers, so the pair is the faithful model of the key.
* `Math.random()` (used only for the `ty` field of a letter) is modelled as
  an oracle `rand : ℕ → ℚ` indexed by the number of letters built so far;
  one invocation of the engine corresponds to one oracle.
* The engine's single mutation (adding cells to the occupied set) is
  modelled by returning the new occupied list alongside the result.
-/

/-- A grid cell `(col, row)`; model of the JS key string `"col,row"`. -/
abbrev Cell := ℤ × ℤ

/-- Set-semantics insert into the occupied list (model of `Set.add`). -/
def addCell (s : List Cell) (c : Cell) : List Cell :=
  if c ∈ s then s else c :: s

/-- `MatrixRegion` from serviceRain.ts: inclusive column bounds. -/
structure MatrixRegion where
  startCol : ℤ
  endCol : ℤ
deriving DecidableEq, Repr

/-- `ServiceLayoutStep` from serviceRain.ts. -/
structure ServiceLayoutStep where
  lines : List (List Char)
  baseRow : ℤ
deriving DecidableEq, Repr

/-- `MatrixLetter` from serviceRain.ts (the fixed fields; the TS index
signature carries no data at creation time). -/
structure MatrixLetter where
  char : Char
  x : ℤ
  y : ℤ
  ty : ℚ
  locked : Bool
deriving DecidableEq, Repr

/-- `MatrixMetaLine` from serviceRain.ts. -/
structure MatrixMetaLine where
  text : List Char
  startCol : ℤ
  row : ℤ
deriving DecidableEq, Repr

/-- `PlaceWordIntoGridOptions` from serviceRain.ts. -/
structure PlaceOpts where
  lines : Option (List (List Char))
  baseRow : Option ℤ

/-- The `meta` field of a placement result. -/
structure PlaceMeta where
  lines : List MatrixMetaLine
deriving DecidableEq, Repr

/-- `PlaceWordIntoGridResult` from serviceRain.ts. -/
structure PlaceResult where
  text : List Char
  letters : List MatrixLetter
  meta : PlaceMeta
deriving DecidableEq, Repr

/-- `clampInt(v, lo, hi) = Math.max(lo, Math.min(hi, v))`. -/
def clampInt (v lo hi : ℤ) : ℤ := max lo (min hi v)

/-- `computeRegion(cols, startFrac, endFrac)`:
`{ startCol: Math.floor(cols*startFrac), endCol: Math.floor(cols*endFrac) }`. -/
def computeRegion (cols : ℤ) (startFrac endFrac : ℚ) : MatrixRegion :=
  { startCol := ⌊(cols : ℚ) * startFrac⌋, endCol := ⌊(cols : ℚ) * endFrac⌋ }

/-- The character class of the JS `\s` regex and of `trimEnd` (whitespace
and line terminators). -/
def jsIsSpace (c : Char) : Bool :=
  decide (c.toNat = 9) || decide (c.toNat = 10) || decide (c.toNat = 11) ||
  decide (c.toNat = 12) || decide (c.toNat = 13) || decide (c.toNat = 32) ||
  decide (c.toNat = 0xa0) || decide (c.toNat = 0x1680) ||
  (decide (0x2000 ≤ c.toNat) && decide (c.toNat ≤ 0x200a)) ||
  decide (c.toNat = 0x2028) || decide (c.toNat = 0x2029) ||
  decide (c.toNat = 0x202f) || decide (c.toNat = 0x205f) ||
  decide (c.toNat = 0x3000) || decide (c.toNat = 0xfeff)

/-- `s.trimEnd()`: drop trailing whitespace. -/
def trimEndWS (l : List Char) : List Char :=
  (l.reverse.dropWhile jsIsSpace).reverse

/-- `s.replace(/^\s+/, "")`: drop leading whitespace. -/
def trimStartWS (l : List Char) : List Char :=
  l.dropWhile jsIsSpace

/-- `canFitInRegion(textLen, startCol, row, blocked, region, margin, cols)`
from serviceRain.ts lines 91-108. -/
def canFitInRegion (textLen : ℕ) (startCol row : ℤ) (blocked : List Cell)
    (region : MatrixRegion) (margin cols : ℤ) : Bool :=
  if startCol < region.startCol + margin then false
  else if startCol + (textLen : ℤ) - 1 > region.endCol - margin then false
  else if startCol < 0 || startCol + (textLen : ℤ) - 1 ≥ cols then false
  else (List.range textLen).all
    (fun i => !decide ((startCol + (i : ℤ), row) ∈ blocked))

/-- The break characters of the line splitter: space or hyphen. -/
def isBreakChar (c : Char) : Bool := c = ' ' || c = '-'

/-- Whether index `j` of `text` holds a break character (out of range: no). -/
def breakCharAt (text : List Char) (j : ℕ) : Bool :=
  match text[j]? with
  | some c => isBreakChar c
  | none => false

/-- The backward scan of `splitIntoTwoLines`: from index `i` down to 1,
return the first (largest) index holding a space or hyphen, else `none`. -/
def findBreak (text : List Char) : ℕ → Option ℕ
  | 0 => none
  | j + 1 => if breakCharAt text (j + 1) then some (j + 1) else findBreak text j

/-- Result type of `splitIntoTwoLines`. -/
structure SplitResult where
  lines : List (List Char)
  wrapped : Bool
deriving DecidableEq, Repr

/-- `splitIntoTwoLines(text, maxLen)` from serviceRain.ts lines 110-124. -/
def splitIntoTwoLines (text : List Char) (maxLen : ℕ) : SplitResult :=
  if text.length ≤ maxLen then { lines := [text], wrapped := false }
  else
    let breakAt := (findBreak text (min maxLen (text.length - 1))).getD maxLen
    { lines := [trimEndWS (text.take breakAt), trimStartWS (text.drop breakAt)],
      wrapped := true }

/-- `text.split(/\s+/).filter(Boolean)`: whitespace-separated words.
`acc` is the current word accumulated in reverse. -/
def splitWordsGo : List Char → List Char → List (List Char)
  | [], acc => if acc.isEmpty then [] else [acc.reverse]
  | c :: rest, acc =>
    if jsIsSpace c then
      if acc.isEmpty then splitWordsGo rest []
      else acc.reverse :: splitWordsGo rest []
    else splitWordsGo rest (c :: acc)

/-- The word list used by `wrapTextToLines`. -/
def splitWords (s : List Char) : List (List Char) :=
  splitWordsGo s []

/-- The word loop of `wrapTextToLines` (serviceRain.ts lines 132-141),
returning `(lines, current)` as they stand when the loop exits (normally or
via `break`). -/
def wrapLoop (maxCols maxLines : ℕ) :
    List (List Char) → List Char → List (List Char) →
    (List (List Char) × List Char)
  | [], current, lines => (lines, current)
  | w :: ws, current, lines =>
    let join := if current.length ≠ 0 then current ++ ' ' :: w else w
    if join.length ≤ maxCols then wrapLoop maxCols maxLines ws join lines
    else
      let lines' := if current.length ≠ 0 then lines ++ [current] else lines
      if lines'.length ≥ maxLines - 1 then (lines', w)
      else wrapLoop maxCols maxLines ws w lines'

/-- `wrapTextToLines(text, maxCols, maxLines)` from serviceRain.ts
lines 126-144 (the TS default `maxLines = 6` is passed explicitly here). -/
def wrapTextToLines (text : List Char) (maxCols maxLines : ℕ) :
    List (List Char) :=
  let p := wrapLoop maxCols maxLines (splitWords text) [] []
  if p.2.length ≠ 0 ∧ p.1.length < maxLines then p.1 ++ [p.2] else p.1

/-- The plan-building loop of `planServiceLayout` (serviceRain.ts
lines 68-77): each label gets `baseRow = cursor`, then the cursor advances
by the block height plus the gap (`gapRows` plus one extra row while the
remainder `extra` lasts).  The code skips the advance after the last label;
the cursor is unused there, so advancing unconditionally is equivalent. -/
def planLoop : List (List (List Char) × ℤ) → ℤ → ℤ → ℤ → List ServiceLayoutStep
  | [], _, _, _ => []
  | (ls, h) :: rest, cursor, gapRows, extra =>
    { lines := ls, baseRow := cursor } ::
      planLoop rest (cursor + h + gapRows + (if extra > 0 then 1 else 0))
        gapRows (if extra > 0 then extra - 1 else extra)

/-- `bottom = Math.max(3, rows - 3)` of the layout planner. -/
def planBottom (rows : ℤ) : ℤ := max 3 (rows - 3)

/-- `available = Math.max(0, bottom - top + 1)` with `top = 2`. -/
def planAvailable (rows : ℤ) : ℤ := max 0 (planBottom rows - 2 + 1)

/-- `maxLineLen = Math.max(1, regionCols - margin * 2)` with
`regionCols = Math.max(1, region.endCol - region.startCol + 1)`. -/
def planMaxLineLen (region : MatrixRegion) (margin : ℤ) : ℕ :=
  (max 1 (max 1 (region.endCol - region.startCol + 1) - margin * 2)).toNat

/-- `lineData` paired with `blockHeights` of the layout planner: each
label's ≤2 lines and its block height (2 when there are two lines,
else 1). -/
def planLineData (services : List (List Char)) (region : MatrixRegion)
    (margin : ℤ) : List (List (List Char) × ℤ) :=
  services.map (fun s =>
    let ls := (splitIntoTwoLines s (planMaxLineLen region margin)).lines.take 2
    (ls, if ls.length = 2 then (2 : ℤ) else 1))

/-- `gaps = Math.max(0, services.length - 1)`. -/
def planGaps (n : ℕ) : ℤ := max 0 ((n : ℤ) - 1)

/-- `leftover = Math.max(0, available - sumBlocks)`. -/
def planLeftover (services : List (List Char)) (rows : ℤ)
    (region : MatrixRegion) (margin : ℤ) : ℤ :=
  max 0 (planAvailable rows -
    ((planLineData services region margin).map (fun p => p.2)).sum)

/-- `gapRows = gaps > 0 ? Math.floor(leftover / gaps) : 0`. -/
def planGapRows (services : List (List Char)) (rows : ℤ)
    (region : MatrixRegion) (margin : ℤ) : ℤ :=
  if planGaps services.length > 0 then
    Int.fdiv (planLeftover services rows region margin) (planGaps services.length)
  else 0

/-- `extra = gaps > 0 ? leftover % gaps : 0`. -/
def planExtra0 (services : List (List Char)) (rows : ℤ)
    (region : MatrixRegion) (margin : ℤ) : ℤ :=
  if planGaps services.length > 0 then
    planLeftover services rows region margin % planGaps services.length
  else 0

/-- `planServiceLayout(services, cols, rows, region, margin)` from
serviceRain.ts lines 47-89.  On the empty list the TS code dereferences
`plan[-1].baseRow` and throws, modelled as `none`; a normal return is
`some plan`.  (`cols` is accepted but unused, as in the source.) -/
def planServiceLayout (services : List (List Char)) (cols rows : ℤ)
    (region : MatrixRegion) (margin : ℤ) : Option (List ServiceLayoutStep) :=
  let lds := planLineData services region margin
  let plan := planLoop lds 2 (planGapRows services rows region margin)
    (planExtra0 services rows region margin)
  match plan.getLast? with
  | none => none
  | some last =>
    let lastHeight := ((lds.map (fun p => p.2)).getLast?).getD 1
    let overflow := last.baseRow + lastHeight - 1 - planBottom rows
    some (if overflow > 0 then
        plan.map (fun p => { p with baseRow := max 2 (p.baseRow - overflow) })
      else plan)

/-- Row offset of physical line `li` relative to `baseRow`
(`li === 0 ? 0 : LINE_GAP_ROWS` with `LINE_GAP_ROWS = 1`). -/
def lineRowOff (li : ℕ) : ℤ := if li = 0 then 0 else 1

/-- The interleaved offset candidates of an outward sweep from `base`:
`base-1, base+1, base-2, base+2, ...` for `count` offsets. -/
def sweepCands (base : ℤ) (count : ℕ) : List ℤ :=
  (List.range count).flatMap
    (fun k => [base - ((k : ℤ) + 1), base + ((k : ℤ) + 1)])

/-- The per-line placement loop of `placeWordIntoGrid` (serviceRain.ts
lines 202-257): for each line, try the clamped ideal start column, then the
outward horizontal sweep, then the outward vertical sweep (which keeps the
original start column and moves `baseRow`).  Returns the per-line start
columns and the final `baseRow`, or `none` when a line fails all sweeps. -/
def placeLinesLoop (cols rows : ℤ) (blocked : List Cell)
    (region : MatrixRegion) (regionCols margin top bottom : ℤ)
    (numLines : ℕ) :
    List (List Char) → ℕ → ℤ → Option (List ℤ × ℤ)
  | [], _, baseRow => some ([], baseRow)
  | L :: rest, li, baseRow =>
    let len := L.length
    let idealStart := region.startCol + Int.fdiv (regionCols - (len : ℤ)) 2
    let minStart := region.startCol + margin
    let maxStart := region.endCol - margin - (len : ℤ) + 1
    let startCol := clampInt idealStart minStart (min maxStart (cols - (len : ℤ)))
    let row := baseRow + lineRowOff li
    if canFitInRegion len startCol row blocked region margin cols then
      (placeLinesLoop cols rows blocked region regionCols margin top bottom
          numLines rest (li + 1) baseRow).map
        (fun p => (startCol :: p.1, p.2))
    else
      match (sweepCands startCol (max regionCols 40).toNat).find?
          (fun c => decide (minStart ≤ c) && decide (c ≤ maxStart) &&
            canFitInRegion len c row blocked region margin cols) with
      | some c =>
        (placeLinesLoop cols rows blocked region regionCols margin top bottom
            numLines rest (li + 1) baseRow).map
          (fun p => (c :: p.1, p.2))
      | none =>
        match (sweepCands baseRow (rows - 1).toNat).find?
            (fun cand =>
              !(decide (numLines = 2) &&
                (decide (cand < top) || decide (cand + 1 > bottom))) &&
              canFitInRegion len startCol (cand + lineRowOff li) blocked
                region margin cols) with
        | some cand =>
          (placeLinesLoop cols rows blocked region regionCols margin top bottom
              numLines rest (li + 1) cand).map
            (fun p => (startCol :: p.1, p.2))
        | none => none

/-- Line determination, base-row determination, and the placement loop of
`placeWordIntoGrid` (serviceRain.ts lines 176-257); everything between the
fail-fast input check and the letter emission.  Returns the lines, their
start columns, and the final `baseRow`. -/
def placeWordCore (text : List Char) (cols rows : ℤ) (blocked : List Cell)
    (idx total : ℤ) (region : MatrixRegion) (opts : PlaceOpts) :
    Option (List (List Char) × List ℤ × ℤ) :=
  let margin : ℤ := 1
  let regionCols := max 1 (region.endCol - region.startCol + 1)
  let maxLineLen := (max 1 (regionCols - margin * 2)).toNat
  let providedLines :=
    match opts.lines with
    | some ls => if ls.length ≠ 0 then some (ls.take 2) else none
    | none => none
  let initialLines :=
    match providedLines with
    | some ls => ls
    | none => (splitIntoTwoLines text maxLineLen).lines
  let lines := initialLines.take 2
  let top : ℤ := 2
  let bottom := max 3 (rows - 3)
  let bands := max 1 total
  let baseRow0 :=
    match opts.baseRow with
    | some b => clampInt b top bottom
    | none =>
      if bands = 1 then Int.fdiv (top + bottom) 2
      else
        clampInt
          (top + Int.fdiv (2 * idx * (bottom - top) + (bands - 1))
            (2 * (bands - 1)))
          top bottom
  let baseRow1 :=
    if lines.length = 2 ∧ baseRow0 + 1 > bottom then max 2 (bottom - 1)
    else baseRow0
  (placeLinesLoop cols rows blocked region regionCols margin top bottom
      lines.length lines 0 baseRow1).map
    (fun p => (lines, p.1, p.2))

/-- The `ty` of a letter: `-100 - Math.random() * 300`, with the `k`-th
random draw supplied by the oracle `rand`. -/
def letterTy (rand : ℕ → ℚ) (k : ℕ) : ℚ := -100 - rand k * 300

/-- The per-character emission loop (serviceRain.ts lines 266-274): build a
letter for every non-space character, mark every character's cell occupied
(spaces included).  `i` is the character index, `k` the running count of
letters built (random draws consumed). -/
def emitChars (fontSize : ℤ) (rand : ℕ → ℚ) (startCol row : ℤ) :
    List Char → ℕ → ℕ → List Cell → (List MatrixLetter × List Cell × ℕ)
  | [], _, k, blocked => ([], blocked, k)
  | c :: rest, i, k, blocked =>
    let col := startCol + (i : ℤ)
    let blocked' := addCell blocked (col, row)
    if c ≠ ' ' then
      let r := emitChars fontSize rand startCol row rest (i + 1) (k + 1) blocked'
      ({ char := c, x := col * fontSize, y := row * fontSize,
         ty := letterTy rand k, locked := false } :: r.1, r.2)
    else
      emitChars fontSize rand startCol row rest (i + 1) k blocked'

/-- The per-line emission loop (serviceRain.ts lines 261-275), over lines
zipped with their start columns. -/
def emitLines (fontSize : ℤ) (rand : ℕ → ℚ) (baseRow : ℤ) :
    List (List Char × ℤ) → ℕ → ℕ → List Cell →
    (List MatrixLetter × List MatrixMetaLine × List Cell)
  | [], _, _, blocked => ([], [], blocked)
  | (L, startCol) :: rest, li, k, blocked =>
    let row := baseRow + lineRowOff li
    let r1 := emitChars fontSize rand startCol row L 0 k blocked
    let r2 := emitLines fontSize rand baseRow rest (li + 1) r1.2.2 r1.2.1
    (r1.1 ++ r2.1, { text := L, startCol := startCol, row := row } :: r2.2.1,
      r2.2.2)

/-- `placeWordIntoGrid(text, cols, rows, blocked, fontSize, idx, total,
region, opts)` from serviceRain.ts lines 164-278.  The returned pair is
(result, occupied set after the call); the TS mutation of `blocked` is
modelled by the second component. -/
def placeWordIntoGrid (text : List Char) (cols rows : ℤ)
    (blocked : List Cell) (fontSize : ℤ) (idx total : ℤ)
    (region : MatrixRegion) (opts : PlaceOpts) (rand : ℕ → ℚ) :
    Option PlaceResult × List Cell :=
  if text = [] ∨ cols = 0 ∨ rows = 0 then (none, blocked)
  else
    match placeWordCore text cols rows blocked idx total region opts with
    | none => (none, blocked)
    | some r =>
      let e := emitLines fontSize rand r.2.2 (r.1.zip r.2.1) 0 0 blocked
      (some { text := text, letters := e.1, meta := { lines := e.2.1 } }, e.2.2)

/-! ## Auxiliary concrete data for individual claims -/

/-- Occupied set for the overlap bug scenario: all of row 11 across columns
0..19, plus the single cell (9, 9). -/
def overlapBlocked : List Cell :=
  ((List.range 20).map (fun c => ((c : ℤ), (11 : ℤ)))) ++ [((9 : ℤ), (9 : ℤ))]

/-- Occupied set for the out-of-grid-row scenario: every cell of rows 0..4
across columns 0..9 of a 10 x 6 grid. -/
def fullLowRowsBlocked : List Cell :=
  (List.range 5).flatMap (fun r => (List.range 10).map (fun c => ((c : ℤ), (r : ℤ))))

/-! ## Claim theorems -/

/-- C3 (counterexample): the claim requires both columns of
`computeRegion(cols, s, e)` to lie in `[0, cols)` for all
`0 ≤ s ≤ e ≤ 1`, but at `cols = 100`, `s = 1/2`, `e = 1` (which satisfy
every precondition) the result's `endCol` is `100`, not below `cols`. -/
theorem computeRegion_endCol_counterexample :
    0 < (100 : ℤ) ∧ (0 : ℚ) ≤ 1 / 2 ∧ (1 / 2 : ℚ) ≤ 1 ∧ (1 : ℚ) ≤ 1 ∧
    ¬ ((computeRegion 100 (1 / 2) 1).endCol < 100) := by
  have h : (computeRegion 100 (1 / 2) 1).endCol = 100 := by
    show (⌊(100 : ℚ) * 1⌋ : ℤ) = 100
    norm_num
  refine ⟨by norm_num, by norm_num, by norm_num, le_refl 1, ?_⟩
  rw [h]
  omega

/-- C3 (amended): `computeRegion(cols, s, e)` is exactly
`{ startCol := ⌊cols·s⌋, endCol := ⌊cols·e⌋ }`, and for `cols > 0` and
`0 ≤ s ≤ e ≤ 1` the result satisfies `startCol ≤ endCol` with both columns
in the closed interval `[0, cols]` (the original half-open bound fails at
`e = 1`). -/
theorem computeRegion_contract (cols : ℤ) (s e : ℚ)
    (hc : 0 < cols) (hs : 0 ≤ s) (hse : s ≤ e) (he : e ≤ 1) :
    computeRegion cols s e = ⟨⌊(cols : ℚ) * s⌋, ⌊(cols : ℚ) * e⌋⟩ ∧
    (computeRegion cols s e).startCol ≤ (computeRegion cols s e).endCol ∧
    0 ≤ (computeRegion cols s e).startCol ∧
    (computeRegion cols s e).endCol ≤ cols := by
  have hc' : (0 : ℚ) ≤ (cols : ℚ) := by exact_mod_cast hc.le
  refine ⟨rfl, ?_, ?_, ?_⟩
  · exact Int.floor_le_floor (mul_le_mul_of_nonneg_left hse hc')
  · exact Int.floor_nonneg.mpr (mul_nonneg hc' hs)
  · have hle : (cols : ℚ) * e ≤ (cols : ℚ) := by nlinarith
    have hfl : ⌊(cols : ℚ) * e⌋ ≤ ⌊(cols : ℚ)⌋ := Int.floor_le_floor hle
    simpa [Int.floor_intCast] using hfl

/-- C3 (witness): the amended contract applied at scenario A,
`computeRegion(100, 0.5, 0.8)`. -/
theorem computeRegion_contract_witness :
    0 < (100 : ℤ) ∧
    (computeRegion 100 (1 / 2) (4 / 5)).startCol ≤
      (computeRegion 100 (1 / 2) (4 / 5)).endCol :=
  ⟨by norm_num,
    (computeRegion_contract 100 (1 / 2) (4 / 5) (by norm_num) (by norm_num)
      (by norm_num) (by norm_num)).2.1⟩

/-- C6: `canFitInRegion` returns `false` exactly when the start column
violates the left region margin, the line end violates the right region
margin, the line leaves the grid `[0, cols)`, or some covered cell is
occupied; and the two scenario-B evaluations hold. -/
theorem canFitInRegion_spec (len : ℕ) (sc row margin cols : ℤ)
    (blocked : List Cell) (region : MatrixRegion) :
    (canFitInRegion len sc row blocked region margin cols = false ↔
      sc < region.startCol + margin ∨
      sc + (len : ℤ) - 1 > region.endCol - margin ∨
      sc < 0 ∨ sc + (len : ℤ) - 1 ≥ cols ∨
      ∃ i : ℕ, i < len ∧ (sc + (i : ℤ), row) ∈ blocked) ∧
    canFitInRegion 4 52 10 [] ⟨50, 80⟩ 1 120 = true ∧
    canFitInRegion 8 78 10 [] ⟨50, 80⟩ 1 120 = false := by
  refine ⟨?_, by decide, by decide⟩
  unfold canFitInRegion
  split_ifs with h1 h2 h3
  · simp only [eq_self_iff_true, true_iff]
    exact Or.inl h1
  · simp only [eq_self_iff_true, true_iff]
    exact Or.inr (Or.inl h2)
  · simp only [eq_self_iff_true, true_iff]
    rcases (by simpa using h3 : sc < 0 ∨ cols ≤ sc + (len : ℤ) - 1) with h | h
    · exact Or.inr (Or.inr (Or.inl h))
    · exact Or.inr (Or.inr (Or.inr (Or.inl h)))
  · have h3' : ¬ (sc < 0 ∨ cols ≤ sc + (len : ℤ) - 1) := by simpa using h3
    constructor
    · intro hall
      have : ¬ ∀ i ∈ List.range len,
          (!decide ((sc + (i : ℤ), row) ∈ blocked)) = true := by
        intro hforall
        rw [List.all_eq_true.mpr hforall] at hall
        exact Bool.true_eq_false.mp hall
      push_neg at this
      obtain ⟨i, hi, hmem⟩ := this
      refine Or.inr (Or.inr (Or.inr (Or.inr ⟨i, List.mem_range.mp hi, ?_⟩)))
      simpa using hmem
    · intro hdisj
      rcases hdisj with h | h | h | h | ⟨i, hi, hmem⟩
      · exact absurd h h1
      · exact absurd h h2
      · exact absurd (Or.inl h) h3'
      · exact absurd (Or.inr h) h3'
      · apply Bool.eq_false_iff.mpr
        intro hall
        have := List.all_eq_true.mp hall i (List.mem_range.mpr hi)
        simp [hmem] at this

/-- C9: `canFitInRegion` puts no constraint on its row argument (with an
empty occupied set its value is independent of the row), and the engine can
therefore place a single-line label at a row outside `[0, rows)`: in a
10 x 6 grid whose rows 0..4 are fully occupied, the two-character label is
placed at row `-1`. -/
theorem canFit_row_unconstrained_out_of_grid :
    (∀ (len : ℕ) (sc r1 r2 margin cols : ℤ) (region : MatrixRegion),
      canFitInRegion len sc r1 [] region margin cols =
        canFitInRegion len sc r2 [] region margin cols) ∧
    ((placeWordIntoGrid ['A', 'B'] 10 6 fullLowRowsBlocked 1 0 1 ⟨0, 9⟩
        ⟨none, none⟩ (fun _ => 0)).1.map
      (fun p => p.meta.lines.map (fun L => (L.startCol, L.row)))
        = some [(4, -1)]) ∧
    (-1 : ℤ) < 0 := by
  refine ⟨?_, by decide, by decide⟩
  intro len sc r1 r2 margin cols region
  unfold canFitInRegion
  simp

/-- C2: the engine returns `null` immediately (with the occupied set
untouched) on empty text or a zero grid dimension; whenever it returns
`null` the occupied set is completely unchanged; and `null` arises only
from invalid input or from the per-line sweep loop (`placeWordCore`)
exhausting both the horizontal and the vertical sweep. -/
theorem placeWordIntoGrid_null_spec (text : List Char) (cols rows : ℤ)
    (blocked : List Cell) (fontSize idx total : ℤ) (region : MatrixRegion)
    (opts : PlaceOpts) (rand : ℕ → ℚ) :
    ((text = [] ∨ cols = 0 ∨ rows = 0) →
      placeWordIntoGrid text cols rows blocked fontSize idx total region opts
        rand = (none, blocked)) ∧
    ((placeWordIntoGrid text cols rows blocked fontSize idx total region opts
        rand).1 = none →
      (placeWordIntoGrid text cols rows blocked fontSize idx total region opts
        rand).2 = blocked) ∧
    ((placeWordIntoGrid text cols rows blocked fontSize idx total region opts
        rand).1 = none →
      text = [] ∨ cols = 0 ∨ rows = 0 ∨
        placeWordCore text cols rows blocked idx total region opts = none) ∧
    ((¬ (text = [] ∨ cols = 0 ∨ rows = 0) ∧
        placeWordCore text cols rows blocked idx total region opts = none) →
      placeWordIntoGrid text cols rows blocked fontSize idx total region opts
        rand = (none, blocked)) := by
  unfold placeWordIntoGrid
  by_cases h : text = [] ∨ cols = 0 ∨ rows = 0
  · simp only [if_pos h]
    refine ⟨fun _ => by trivial, fun _ => by trivial, fun _ => ?_,
      fun _ => by trivial⟩
    exact h.imp id (fun h' => h'.imp id Or.inl)
  · simp only [if_neg h]
    cases hcore : placeWordCore text cols rows blocked idx total region opts with
    | none => simp [h]
    | some r => simp [h]

/-- C2 (witness): the null behaviour applied at empty text. -/
theorem placeWordIntoGrid_null_witness :
    (([] : List Char) = [] ∨ (5 : ℤ) = 0 ∨ (5 : ℤ) = 0) ∧
    placeWordIntoGrid [] 5 5 [] 1 0 1 ⟨0, 4⟩ ⟨none, none⟩ (fun _ => 0)
      = (none, []) :=
  ⟨Or.inl rfl,
    (placeWordIntoGrid_null_spec [] 5 5 [] 1 0 1 ⟨0, 4⟩ ⟨none, none⟩
      (fun _ => 0)).1 (Or.inl rfl)⟩

/-! ## Lemmas about the backward break scan -/

/-- If the backward scan from `i` finds `b`, then `b` is a break position in
`[1, i]` and no later index up to `i` is one (it is the nearest break
scanning backward). -/
theorem findBreak_eq_some (text : List Char) :
    ∀ i b, findBreak text i = some b →
      1 ≤ b ∧ b ≤ i ∧ breakCharAt text b = true ∧
        ∀ j, b < j → j ≤ i → breakCharAt text j = false := by
  intro i
  induction i with
  | zero => intro b h; exact absurd h (by simp [findBreak])
  | succ i ih =>
    intro b h
    rw [findBreak] at h
    by_cases hb : breakCharAt text (i + 1) = true
    · rw [if_pos hb] at h
      obtain rfl : i + 1 = b := by simpa using h
      exact ⟨by omega, le_refl _, hb, fun j hj1 hj2 => by omega⟩
    · rw [if_neg hb] at h
      obtain ⟨h1, h2, h3, h4⟩ := ih b h
      refine ⟨h1, by omega, h3, fun j hj1 hj2 => ?_⟩
      rcases Nat.lt_or_ge j (i + 1) with hj | hj
      · exact h4 j hj1 (by omega)
      · have : j = i + 1 := by omega
        rw [this]
        exact Bool.eq_false_iff.mpr hb

/-- If the backward scan from `i` finds nothing, no index in `[1, i]` is a
break position. -/
theorem findBreak_eq_none (text : List Char) :
    ∀ i, findBreak text i = none →
      ∀ j, 1 ≤ j → j ≤ i → breakCharAt text j = false := by
  intro i
  induction i with
  | zero => intro _ j hj1 hj2; omega
  | succ i ih =>
    intro h j hj1 hj2
    rw [findBreak] at h
    by_cases hb : breakCharAt text (i + 1) = true
    · rw [if_pos hb] at h; exact absurd h (by simp)
    · rw [if_neg hb] at h
      rcases Nat.lt_or_ge j (i + 1) with hj | hj
      · exact ih h j hj1 (by omega)
      · have : j = i + 1 := by omega
        rw [this]
        exact Bool.eq_false_iff.mpr hb

/-- C4: for `maxLen ≥ 1`, `splitIntoTwoLines` never returns more than two
lines; a text fitting `maxLen` is returned unwrapped and unchanged; a
longer text is wrapped into exactly the two slices around a break index
`b`, where `b` is either the nearest space/hyphen position found scanning
backward from `min(maxLen, length-1)` down to 1, or `maxLen` (hard break)
when no such position exists; the first slice is right-trimmed and the
second left-trimmed. -/
theorem splitIntoTwoLines_spec (text : List Char) (maxLen : ℕ)
    (hm : 1 ≤ maxLen) :
    (splitIntoTwoLines text maxLen).lines.length ≤ 2 ∧
    (text.length ≤ maxLen →
      splitIntoTwoLines text maxLen = { lines := [text], wrapped := false }) ∧
    (maxLen < text.length →
      (splitIntoTwoLines text maxLen).wrapped = true ∧
      ∃ b, (splitIntoTwoLines text maxLen).lines =
          [trimEndWS (text.take b), trimStartWS (text.drop b)] ∧
        ((1 ≤ b ∧ b ≤ min maxLen (text.length - 1) ∧
            breakCharAt text b = true ∧
            ∀ j, b < j → j ≤ min maxLen (text.length - 1) →
              breakCharAt text j = false) ∨
         (b = maxLen ∧
            ∀ j, 1 ≤ j → j ≤ min maxLen (text.length - 1) →
              breakCharAt text j = false))) := by
  by_cases hlen : text.length ≤ maxLen
  · refine ⟨?_, fun _ => ?_, fun hcon => absurd hlen (by omega)⟩
    · simp [splitIntoTwoLines, hlen]
    · simp [splitIntoTwoLines, hlen]
  · have hlt : maxLen < text.length := by omega
    refine ⟨?_, fun hcon => absurd hcon hlen, fun _ => ?_⟩
    · simp [splitIntoTwoLines, hlen]
    · cases hfb : findBreak text (min maxLen (text.length - 1)) with
      | none =>
        refine ⟨by simp [splitIntoTwoLines, hlen], maxLen, ?_, ?_⟩
        · simp [splitIntoTwoLines, hlen, hfb]
        · exact Or.inr ⟨rfl, findBreak_eq_none text _ hfb⟩
      | some b =>
        refine ⟨by simp [splitIntoTwoLines, hlen], b, ?_, ?_⟩
        · simp [splitIntoTwoLines, hlen, hfb]
        · exact Or.inl (findBreak_eq_some text _ b hfb)

/-- C4 (witness): the splitter characterization applied at a concrete
wrapping input. -/
theorem splitIntoTwoLines_spec_witness :
    1 ≤ 4 ∧ (splitIntoTwoLines ['a', 'b', ' ', 'c', 'd'] 4).lines.length ≤ 2 :=
  ⟨by decide, (splitIntoTwoLines_spec ['a', 'b', ' ', 'c', 'd'] 4 (by decide)).1⟩

/-! ## Lemmas about the greedy word wrapper -/

/-- Loop bound for `wrapLoop`: if the emitted lines still leave room for one
more (`lines.length + 1 ≤ maxLines`), the loop exits with at most
`maxLines` emitted lines. -/
theorem wrapLoop_length (maxCols maxLines : ℕ) :
    ∀ (ws : List (List Char)) (cur : List Char) (lines : List (List Char)),
      lines.length + 1 ≤ maxLines →
      (wrapLoop maxCols maxLines ws cur lines).1.length ≤ maxLines := by
  intro ws
  induction ws with
  | nil => intro cur lines h; simpa [wrapLoop] using by omega
  | cons w ws ih =>
    intro cur lines h
    rw [wrapLoop]
    by_cases hj :
        (if cur.length ≠ 0 then cur ++ ' ' :: w else w).length ≤ maxCols
    · rw [if_pos hj]
      exact ih _ lines h
    · rw [if_neg hj]
      by_cases hcur : cur.length ≠ 0
      · simp only [if_pos hcur]
        by_cases hbrk : (lines ++ [cur]).length ≥ maxLines - 1
        · rw [if_pos hbrk]
          simp only [List.length_append, List.length_singleton]
          omega
        · rw [if_neg hbrk]
          apply ih
          simp only [List.length_append, List.length_singleton] at hbrk ⊢
          omega
      · simp only [if_neg hcur]
        by_cases hbrk : lines.length ≥ maxLines - 1
        · rw [if_pos hbrk]
          show lines.length ≤ maxLines
          omega
        · rw [if_neg hbrk]
          exact ih _ lines h

/-- Content invariant for `wrapLoop`: if every already-emitted line and the
in-progress line are each within `maxCols` or a whole word of `ws0`, and
the remaining words come from `ws0`, the same holds for the loop's emitted
lines and final in-progress line. -/
theorem wrapLoop_content (maxCols maxLines : ℕ) (ws0 : List (List Char)) :
    ∀ (ws : List (List Char)) (cur : List Char) (lines : List (List Char)),
      (∀ w ∈ ws, w ∈ ws0) →
      (∀ L ∈ lines, L.length ≤ maxCols ∨ L ∈ ws0) →
      (cur = [] ∨ cur.length ≤ maxCols ∨ cur ∈ ws0) →
      (∀ L ∈ (wrapLoop maxCols maxLines ws cur lines).1,
        L.length ≤ maxCols ∨ L ∈ ws0) ∧
      ((wrapLoop maxCols maxLines ws cur lines).2 = [] ∨
        (wrapLoop maxCols maxLines ws cur lines).2.length ≤ maxCols ∨
        (wrapLoop maxCols maxLines ws cur lines).2 ∈ ws0) := by
  intro ws
  induction ws with
  | nil =>
    intro cur lines _ hlines hcur
    exact ⟨by simpa [wrapLoop] using hlines, by simpa [wrapLoop] using hcur⟩
  | cons w ws ih =>
    intro cur lines hsub hlines hcur
    have hw : w ∈ ws0 := hsub w (List.mem_cons_self w ws)
    have hsub' : ∀ v ∈ ws, v ∈ ws0 := fun v hv =>
      hsub v (List.mem_cons_of_mem w hv)
    rw [wrapLoop]
    by_cases hj :
        (if cur.length ≠ 0 then cur ++ ' ' :: w else w).length ≤ maxCols
    · rw [if_pos hj]
      exact ih _ lines hsub' hlines (Or.inr (Or.inl hj))
    · rw [if_neg hj]
      have hlines' : ∀ L ∈ (if cur.length ≠ 0 then lines ++ [cur] else lines),
          L.length ≤ maxCols ∨ L ∈ ws0 := by
        by_cases hcur0 : cur.length ≠ 0
        · simp only [if_pos hcur0]
          intro L hL
          rcases List.mem_append.mp hL with hL | hL
          · exact hlines L hL
          · obtain rfl : L = cur := by simpa using hL
            rcases hcur with h0 | h
            · exact absurd (by simp [h0]) hcur0
            · exact h
        · simp only [if_neg hcur0]
          exact hlines
      by_cases hbrk :
          (if cur.length ≠ 0 then lines ++ [cur] else lines).length ≥
            maxLines - 1
      · rw [if_pos hbrk]
        exact ⟨hlines', Or.inr (Or.inr hw)⟩
      · rw [if_neg hbrk]
        exact ih _ _ hsub' hlines' (Or.inr (Or.inr hw))

/-- C5 (counterexample): the claim quantifies over every `maxLines`, but at
`maxLines = 0` the code still returns one line for `"aaa b"` with
`maxCols = 3`, exceeding the claimed bound. -/
theorem wrapTextToLines_counterexample :
    ¬ ((wrapTextToLines ['a', 'a', 'a', ' ', 'b'] 3 0).length ≤ 0) := by
  decide

/-- C5 (amended): for `maxLines ≥ 1`, `wrapTextToLines` returns at most
`maxLines` lines, and every returned line is within `maxCols` unless it is
a single whole word of the input (a word longer than `maxCols` is emitted
whole, never split). -/
theorem wrapTextToLines_spec (text : List Char) (maxCols maxLines : ℕ)
    (h : 1 ≤ maxLines) :
    (wrapTextToLines text maxCols maxLines).length ≤ maxLines ∧
    ∀ L ∈ wrapTextToLines text maxCols maxLines,
      L.length ≤ maxCols ∨ L ∈ splitWords text := by
  have hloop := wrapLoop_length maxCols maxLines (splitWords text) [] []
    (by simpa using h)
  have hcont := wrapLoop_content maxCols maxLines (splitWords text)
    (splitWords text) [] [] (fun w hw => hw) (by simp) (Or.inl rfl)
  unfold wrapTextToLines
  by_cases hc :
      (wrapLoop maxCols maxLines (splitWords text) [] []).2.length ≠ 0 ∧
      (wrapLoop maxCols maxLines (splitWords text) [] []).1.length < maxLines
  · rw [if_pos hc]
    constructor
    · simp only [List.length_append, List.length_singleton]
      omega
    · intro L hL
      rcases List.mem_append.mp hL with hL | hL
      · exact hcont.1 L hL
      · obtain rfl : L = (wrapLoop maxCols maxLines (splitWords text) [] []).2 :=
          by simpa using hL
        rcases hcont.2 with h0 | h'
        · exact absurd (by simp [h0]) hc.1
        · exact h'
  · rw [if_neg hc]
    exact ⟨hloop, hcont.1⟩

/-- C5 (witness): the amended wrapper bound applied at a concrete input. -/
theorem wrapTextToLines_spec_witness :
    1 ≤ 2 ∧ (wrapTextToLines ['a', ' ', 'b'] 5 2).length ≤ 2 :=
  ⟨by decide, (wrapTextToLines_spec ['a', ' ', 'b'] 5 2 (by decide)).1⟩

/-! ## Determinism of the engine modulo the random `ty` field -/

/-- All fields of a letter except the randomised `ty`. -/
def letterShape (l : MatrixLetter) : Char × ℤ × ℤ × Bool :=
  (l.char, l.x, l.y, l.locked)

/-- All observable content of a placement except each letter's `ty`. -/
def placementShape (p : PlaceResult) :
    List Char × List (Char × ℤ × ℤ × Bool) × List MatrixMetaLine :=
  (p.text, p.letters.map letterShape, p.meta.lines)

/-- The character emission loop depends on the random oracle only through
each letter's `ty`: the letter shapes, the occupied set, and the letter
counter are oracle-independent. -/
theorem emitChars_shape (fontSize : ℤ) (r1 r2 : ℕ → ℚ) (startCol row : ℤ) :
    ∀ (L : List Char) (i k : ℕ) (blocked : List Cell),
      (emitChars fontSize r1 startCol row L i k blocked).1.map letterShape =
        (emitChars fontSize r2 startCol row L i k blocked).1.map letterShape ∧
      (emitChars fontSize r1 startCol row L i k blocked).2 =
        (emitChars fontSize r2 startCol row L i k blocked).2 := by
  intro L
  induction L with
  | nil => intro i k blocked; exact ⟨rfl, rfl⟩
  | cons c rest ih =>
    intro i k blocked
    rw [emitChars, emitChars]
    by_cases hc : c ≠ ' '
    · simp only [if_pos hc, List.map_cons]
      obtain ⟨h1, h2⟩ := ih (i + 1) (k + 1)
        (addCell blocked (startCol + (i : ℤ), row))
      exact ⟨by rw [h1]; rfl, h2⟩
    · simp only [if_neg hc]
      exact ih (i + 1) k (addCell blocked (startCol + (i : ℤ), row))

/-- The line emission loop depends on the oracle only through `ty`. -/
theorem emitLines_shape (fontSize : ℤ) (r1 r2 : ℕ → ℚ) (baseRow : ℤ) :
    ∀ (zipped : List (List Char × ℤ)) (li k : ℕ) (blocked : List Cell),
      (emitLines fontSize r1 baseRow zipped li k blocked).1.map letterShape =
        (emitLines fontSize r2 baseRow zipped li k blocked).1.map letterShape ∧
      (emitLines fontSize r1 baseRow zipped li k blocked).2.1 =
        (emitLines fontSize r2 baseRow zipped li k blocked).2.1 ∧
      (emitLines fontSize r1 baseRow zipped li k blocked).2.2 =
        (emitLines fontSize r2 baseRow zipped li k blocked).2.2 := by
  intro zipped
  induction zipped with
  | nil => intro li k blocked; exact ⟨rfl, rfl, rfl⟩
  | cons p rest ih =>
    intro li k blocked
    obtain ⟨L, startCol⟩ := p
    rw [emitLines, emitLines]
    obtain ⟨hc1, hc2⟩ := emitChars_shape fontSize r1 r2 startCol
      (baseRow + lineRowOff li) L 0 k blocked
    rw [hc2]
    obtain ⟨h1, h2, h3⟩ := ih (li + 1)
      (emitChars fontSize r2 startCol (baseRow + lineRowOff li) L 0 k
        blocked).2.2
      (emitChars fontSize r2 startCol (baseRow + lineRowOff li) L 0 k
        blocked).2.1
    refine ⟨?_, ?_, h3⟩
    · simp only [List.map_append]
      rw [hc1, h1]
    · rw [h2]

/-- C8 (counterexample): the claim requires two invocations on identical
occupancy and arguments to agree in every field of every `Letter`, but the
`ty` field consumes `Math.random()`: two invocations whose ambient random
draws differ (oracles constantly 0 and constantly 1) return different
placements for the same arguments. -/
theorem placeWordIntoGrid_random_counterexample :
    (placeWordIntoGrid ['A'] 20 20 [] 1 0 1 ⟨0, 19⟩ ⟨none, none⟩
        (fun _ => 0)).1 ≠
    (placeWordIntoGrid ['A'] 20 20 [] 1 0 1 ⟨0, 19⟩ ⟨none, none⟩
        (fun _ => 1)).1 := by
  intro heq
  have h1 : (placeWordIntoGrid ['A'] 20 20 [] 1 0 1 ⟨0, 19⟩ ⟨none, none⟩
      (fun _ => 0)).1.map (fun p => p.letters.map MatrixLetter.ty)
      = some [letterTy (fun _ => 0) 0] := rfl
  have h2 : (placeWordIntoGrid ['A'] 20 20 [] 1 0 1 ⟨0, 19⟩ ⟨none, none⟩
      (fun _ => 1)).1.map (fun p => p.letters.map MatrixLetter.ty)
      = some [letterTy (fun _ => 1) 0] := rfl
  rw [heq, h2] at h1
  have h3 : letterTy (fun _ => 1) 0 = letterTy (fun _ => 0) 0 := by
    simpa using h1
  simp only [letterTy] at h3
  norm_num at h3

/-- C8 (amended): the engine is deterministic modulo each letter's `ty`:
for a fixed occupancy set and fixed arguments, two invocations (any two
random oracles) agree on the result's text, all letter fields except `ty`,
the meta lines, and the resulting occupied set. -/
theorem placeWordIntoGrid_deterministic_mod_ty (text : List Char)
    (cols rows : ℤ) (blocked : List Cell) (fontSize idx total : ℤ)
    (region : MatrixRegion) (opts : PlaceOpts) (r1 r2 : ℕ → ℚ) :
    (placeWordIntoGrid text cols rows blocked fontSize idx total region opts
        r1).1.map placementShape =
      (placeWordIntoGrid text cols rows blocked fontSize idx total region opts
        r2).1.map placementShape ∧
    (placeWordIntoGrid text cols rows blocked fontSize idx total region opts
        r1).2 =
      (placeWordIntoGrid text cols rows blocked fontSize idx total region opts
        r2).2 := by
  unfold placeWordIntoGrid
  by_cases h : text = [] ∨ cols = 0 ∨ rows = 0
  · simp [h]
  · simp only [if_neg h]
    cases hcore : placeWordCore text cols rows blocked idx total region opts with
    | none => exact ⟨rfl, rfl⟩
    | some r =>
      obtain ⟨h1, h2, h3⟩ := emitLines_shape fontSize r1 r2 r.2.2
        (r.1.zip r.2.1) 0 0 blocked
      refine ⟨?_, h3⟩
      show some (placementShape _) = some (placementShape _)
      simp only [placementShape]
      rw [h1, h2]

/-- C1 (bug evidence): with row 11 fully occupied and the single cell
(9, 9) occupied at call time, placing the two-line label `["AB", "CD"]`
(via planner options, base row 10) succeeds: line 1 triggers the vertical
sweep, which moves `baseRow` to 9 after line 0's fit was checked at row 10
only.  The returned placement's first `LineMeta` is `"AB"` at start column
9, row 9 — covering cell (9, 9), which was a member of the occupied set at
call time, so a successful placement overlaps pre-existing content. -/
theorem placeWordIntoGrid_overlap_bug :
    ((placeWordIntoGrid ['A', 'B', 'C', 'D'] 20 20 overlapBlocked 1 0 1
        ⟨0, 19⟩ ⟨some [['A', 'B'], ['C', 'D']], some 10⟩ (fun _ => 0)).1.map
      (fun p => p.meta.lines.map (fun L => (L.text, L.startCol, L.row))))
      = some [(['A', 'B'], 9, 9), (['C', 'D'], 9, 10)] ∧
    ((9 : ℤ), (9 : ℤ)) ∈ overlapBlocked := by
  exact ⟨by decide, by decide⟩

/-! ## Closed form of the layout planner -/

/-- `getD` through `map`, for indices in range. -/
theorem getD_map {α β : Type} (f : α → β) (l : List α) (i : ℕ) (d : α)
    (d' : β) (h : i < l.length) : (l.map f).getD i d' = f (l.getD i d) := by
  rw [List.getD_eq_getElem?_getD, List.getD_eq_getElem?_getD,
    List.getElem?_map, List.getElem?_eq_getElem h]
  rfl

/-- A mapped list sum as a sum over positions. -/
theorem map_sum_getD {α : Type} (g : α → ℤ) (d : α) :
    ∀ l : List α, (l.map g).sum = ∑ j ∈ Finset.range l.length, g (l.getD j d) := by
  intro l
  induction l with
  | nil => simp
  | cons x l ih =>
    rw [List.map_cons, List.sum_cons, List.length_cons,
      Finset.sum_range_succ']
    simp only [List.getD_cons_succ, List.getD_cons_zero]
    rw [ih]
    ring

/-- The plan loop emits one step per input entry. -/
theorem planLoop_length :
    ∀ (lds : List (List (List Char) × ℤ)) (cursor gapRows extra : ℤ),
      (planLoop lds cursor gapRows extra).length = lds.length := by
  intro lds
  induction lds with
  | nil => intro _ _ _; rfl
  | cons p rest ih =>
    intro cursor gapRows extra
    obtain ⟨ls, h⟩ := p
    rw [planLoop]
    simp only [List.length_cons, ih]

/-- One extra gap row goes to gap `j` exactly when `j < extra`; the running
decrement preserves this under the index shift. -/
theorem extraBit_shift (extra : ℤ) (j : ℕ) :
    (if (j : ℤ) < (if extra > 0 then extra - 1 else extra) then (1 : ℤ) else 0) =
      (if ((j : ℤ) + 1) < extra then (1 : ℤ) else 0) := by
  have hj : (0 : ℤ) ≤ (j : ℤ) := Int.ofNat_nonneg j
  by_cases he : extra > 0
  · rw [if_pos he]
    by_cases hlt : (j : ℤ) < extra - 1
    · rw [if_pos hlt, if_pos (by omega)]
    · rw [if_neg hlt, if_neg (by omega)]
  · rw [if_neg he]
    rw [if_neg (by omega), if_neg (by omega)]

/-- Closed form of the plan loop: entry `i` keeps its input lines and gets
`baseRow = cursor` plus the accumulated block heights, gap rows, and extra
rows of the `i` earlier labels. -/
theorem planLoop_getD :
    ∀ (lds : List (List (List Char) × ℤ)) (i : ℕ), i < lds.length →
      ∀ (cursor gapRows extra : ℤ),
      (planLoop lds cursor gapRows extra).getD i ⟨[], 0⟩ =
        { lines := (lds.getD i ([], 0)).1,
          baseRow := cursor + ∑ j ∈ Finset.range i,
            ((lds.getD j ([], 0)).2 + gapRows +
              (if (j : ℤ) < extra then 1 else 0)) } := by
  intro lds
  induction lds with
  | nil => intro i hi; simp at hi
  | cons p rest ih =>
    intro i hi cursor gapRows extra
    obtain ⟨ls, h⟩ := p
    cases i with
    | zero =>
      rw [planLoop]
      simp [List.getD_cons_zero]
    | succ i =>
      have hi' : i < rest.length := by simpa using hi
      rw [planLoop, List.getD_cons_succ,
        ih i hi' (cursor + h + gapRows + (if extra > 0 then 1 else 0)) gapRows
          (if extra > 0 then extra - 1 else extra)]
      simp only [List.getD_cons_succ]
      congr 1
      rw [Finset.sum_range_succ']
      simp only [List.getD_cons_succ, List.getD_cons_zero]
      have hbits : ∀ j ∈ Finset.range i,
          (rest.getD j ([], 0)).2 + gapRows +
            (if (j : ℤ) < (if extra > 0 then extra - 1 else extra) then (1 : ℤ)
              else 0) =
          (rest.getD j ([], 0)).2 + gapRows +
            (if ((j : ℤ) + 1) < extra then (1 : ℤ) else 0) := by
        intro j _
        rw [extraBit_shift]
      rw [Finset.sum_congr rfl hbits]
      push_cast
      ring

/-- The cursor value (hence `baseRow` before overflow correction) of label
`i` in the planner's loop: the top row 2 plus the accumulated block
heights, gap rows, and early-gap extra rows of the `i` earlier labels. -/
def planRawCursor (services : List (List Char)) (rows : ℤ)
    (region : MatrixRegion) (margin : ℤ) (i : ℕ) : ℤ :=
  2 + ∑ j ∈ Finset.range i,
    (((planLineData services region margin).getD j ([], 0)).2 +
      planGapRows services rows region margin +
      (if (j : ℤ) < planExtra0 services rows region margin then 1 else 0))

/-- The amount by which the last label's bottom edge overruns the bottom
row (positive values trigger the upward shift). -/
def planOverflow (services : List (List Char)) (rows : ℤ)
    (region : MatrixRegion) (margin : ℤ) : ℤ :=
  planRawCursor services rows region margin (services.length - 1) +
    ((planLineData services region margin).getD
      (services.length - 1) ([], 0)).2 - 1 - planBottom rows

/-- Structural characterization of `planServiceLayout` on a non-empty label
list: the call succeeds, returns one step per label, each step keeps the
planner's line data, and each `baseRow` is the loop's closed form, shifted
up by the bottom overflow (clamped at the top row 2) when the last label
would overrun the bottom. -/
theorem planServiceLayout_some (services : List (List Char)) (cols rows : ℤ)
    (region : MatrixRegion) (margin : ℤ) (hne : services ≠ []) :
    ∃ plan, planServiceLayout services cols rows region margin = some plan ∧
      plan.length = services.length ∧
      (∀ i, i < services.length →
        (plan.getD i ⟨[], 0⟩).lines =
          ((planLineData services region margin).getD i ([], 0)).1) ∧
      (∀ i, i < services.length →
        (plan.getD i ⟨[], 0⟩).baseRow =
          (if planOverflow services rows region margin > 0 then
            max 2 (planRawCursor services rows region margin i -
              planOverflow services rows region margin)
          else planRawCursor services rows region margin i)) := by
  have hlen_lds : (planLineData services region margin).length =
      services.length := by
    simp [planLineData]
  have hn : 0 < services.length := List.length_pos.mpr hne
  have hplen : (planLoop (planLineData services region margin) 2
      (planGapRows services rows region margin)
      (planExtra0 services rows region margin)).length = services.length := by
    rw [planLoop_length]; exact hlen_lds
  have hidx : services.length - 1 <
      (planLoop (planLineData services region margin) 2
        (planGapRows services rows region margin)
        (planExtra0 services rows region margin)).length := by
    omega
  have hlast : (planLoop (planLineData services region margin) 2
      (planGapRows services rows region margin)
      (planExtra0 services rows region margin)).getLast? =
      some ((planLoop (planLineData services region margin) 2
        (planGapRows services rows region margin)
        (planExtra0 services rows region margin)).getD
          (services.length - 1) ⟨[], 0⟩) := by
    rw [List.getLast?_eq_getElem?, hplen,
      List.getElem?_eq_getElem hidx, List.getD_eq_getElem?_getD,
      List.getElem?_eq_getElem hidx]
    rfl
  have hlastH : (((planLineData services region margin).map
      (fun p => p.2)).getLast?).getD 1 =
      ((planLineData services region margin).getD
        (services.length - 1) ([], 0)).2 := by
    have hidx' : services.length - 1 <
        (planLineData services region margin).length := by omega
    rw [List.getLast?_eq_getElem?, List.length_map, hlen_lds,
      List.getElem?_map, List.getElem?_eq_getElem hidx',
      List.getD_eq_getElem?_getD, List.getElem?_eq_getElem hidx']
    rfl
  have hbase : ∀ i, i < services.length →
      ((planLoop (planLineData services region margin) 2
        (planGapRows services rows region margin)
        (planExtra0 services rows region margin)).getD i ⟨[], 0⟩).baseRow =
        planRawCursor services rows region margin i := by
    intro i hi
    rw [planLoop_getD (planLineData services region margin) i (by omega) 2
      (planGapRows services rows region margin)
      (planExtra0 services rows region margin)]
    rfl
  have hlinesLoop : ∀ i, i < services.length →
      ((planLoop (planLineData services region margin) 2
        (planGapRows services rows region margin)
        (planExtra0 services rows region margin)).getD i ⟨[], 0⟩).lines =
        ((planLineData services region margin).getD i ([], 0)).1 := by
    intro i hi
    rw [planLoop_getD (planLineData services region margin) i (by omega) 2
      (planGapRows services rows region margin)
      (planExtra0 services rows region margin)]
  refine ⟨if planOverflow services rows region margin > 0 then
      (planLoop (planLineData services region margin) 2
        (planGapRows services rows region margin)
        (planExtra0 services rows region margin)).map
        (fun p => { p with baseRow := max 2 (p.baseRow -
          planOverflow services rows region margin) })
    else planLoop (planLineData services region margin) 2
      (planGapRows services rows region margin)
      (planExtra0 services rows region margin), ?_, ?_, ?_, ?_⟩
  · show (match (planLoop (planLineData services region margin) 2
        (planGapRows services rows region margin)
        (planExtra0 services rows region margin)).getLast? with
      | none => none
      | some last =>
        some (if last.baseRow + ((((planLineData services region margin).map
              (fun p => p.2)).getLast?).getD 1) - 1 - planBottom rows > 0 then
            (planLoop (planLineData services region margin) 2
              (planGapRows services rows region margin)
              (planExtra0 services rows region margin)).map
              (fun p => { p with baseRow := max 2 (p.baseRow -
                (last.baseRow + ((((planLineData services region margin).map
                  (fun p => p.2)).getLast?).getD 1) - 1 - planBottom rows)) })
          else planLoop (planLineData services region margin) 2
            (planGapRows services rows region margin)
            (planExtra0 services rows region margin))) = some _
    simp only [hlast, hlastH, hbase (services.length - 1) (by omega)]
    rfl
  · rw [apply_ite List.length, List.length_map, hplen, ite_self]
  · intro i hi
    by_cases hov : planOverflow services rows region margin > 0
    · rw [if_pos hov, getD_map
        ((fun p => { p with baseRow := max 2 (p.baseRow -
          planOverflow services rows region margin) }) :
            ServiceLayoutStep → ServiceLayoutStep)
        (planLoop (planLineData services region margin) 2
          (planGapRows services rows region margin)
          (planExtra0 services rows region margin)) i ⟨[], 0⟩ ⟨[], 0⟩
        (by omega)]
      exact hlinesLoop i hi
    · rw [if_neg hov]
      exact hlinesLoop i hi
  · intro i hi
    by_cases hov : planOverflow services rows region margin > 0
    · rw [if_pos hov, if_pos hov, getD_map
        ((fun p => { p with baseRow := max 2 (p.baseRow -
          planOverflow services rows region margin) }) :
            ServiceLayoutStep → ServiceLayoutStep)
        (planLoop (planLineData services region margin) 2
          (planGapRows services rows region margin)
          (planExtra0 services rows region margin)) i ⟨[], 0⟩ ⟨[], 0⟩
        (by omega)]
      show max 2 (((planLoop (planLineData services region margin) 2
        (planGapRows services rows region margin)
        (planExtra0 services rows region margin)).getD i ⟨[], 0⟩).baseRow -
          planOverflow services rows region margin) = _
      rw [hbase i hi]
    · rw [if_neg hov, if_neg hov]
      exact hbase i hi

/-- Entry `i` of the planner's line data, for indices in range. -/
theorem planLineData_getD (services : List (List Char)) (region : MatrixRegion)
    (margin : ℤ) (i : ℕ) (hi : i < services.length) :
    (planLineData services region margin).getD i ([], 0) =
      ((splitIntoTwoLines (services.getD i [])
          (planMaxLineLen region margin)).lines.take 2,
        if ((splitIntoTwoLines (services.getD i [])
            (planMaxLineLen region margin)).lines.take 2).length = 2 then (2 : ℤ)
        else 1) := by
  unfold planLineData
  exact getD_map _ services i [] ([], 0) hi

/-- C10: `planServiceLayout` is total only on non-empty label lists: the
empty list makes the TS overflow correction dereference the nonexistent
last plan entry (modelled `none`), while every non-empty list yields
exactly one `LayoutStep` per label, in input order, carrying that label's
two-line split. -/
theorem planServiceLayout_requires_nonempty (services : List (List Char))
    (cols rows : ℤ) (region : MatrixRegion) (margin : ℤ) :
    (services = [] → planServiceLayout services cols rows region margin = none) ∧
    (services ≠ [] →
      ∃ plan, planServiceLayout services cols rows region margin = some plan ∧
        plan.length = services.length ∧
        ∀ i, i < services.length →
          (plan.getD i ⟨[], 0⟩).lines =
            (splitIntoTwoLines (services.getD i [])
              (planMaxLineLen region margin)).lines.take 2) := by
  constructor
  · intro h
    subst h
    rfl
  · intro hne
    obtain ⟨plan, heq, hlen, hlines, _⟩ :=
      planServiceLayout_some services cols rows region margin hne
    refine ⟨plan, heq, hlen, fun i hi => ?_⟩
    rw [hlines i hi, planLineData_getD services region margin i hi]

/-- C10 (witness): the totality characterization applied at a singleton
label list. -/
theorem planServiceLayout_requires_nonempty_witness :
    ([['A']] : List (List Char)) ≠ [] ∧
    ∃ plan, planServiceLayout [['A']] 10 20 ⟨0, 9⟩ 1 = some plan ∧
      plan.length = 1 ∧
      ∀ i, i < 1 →
        (plan.getD i ⟨[], 0⟩).lines =
          (splitIntoTwoLines (([['A']] : List (List Char)).getD i [])
            (planMaxLineLen ⟨0, 9⟩ 1)).lines.take 2 :=
  ⟨by simp,
    by simpa using
      (planServiceLayout_requires_nonempty [['A']] 10 20 ⟨0, 9⟩ 1).2 (by simp)⟩

/-! ## Spec-side formulation of the planner's row distribution (C7) -/

/-- Modelled from the spec: a label's block height is 2 when its two-line
split wraps, else 1. -/
def planBlockHeightSpec (maxLineLen : ℕ) (s : List Char) : ℤ :=
  if (splitIntoTwoLines s maxLineLen).wrapped then 2 else 1

/-- Modelled from the spec: the sum of all block heights. -/
def planSumHeightsSpec (services : List (List Char)) (region : MatrixRegion)
    (margin : ℤ) : ℤ :=
  ∑ j ∈ Finset.range services.length,
    planBlockHeightSpec (planMaxLineLen region margin) (services.getD j [])

/-- Modelled from the spec: the leftover rows — the available band rows
(`bottom - top + 1`) minus the sum of block heights; a row count, hence
never negative. -/
def planLeftoverSpec (services : List (List Char)) (rows : ℤ)
    (region : MatrixRegion) (margin : ℤ) : ℤ :=
  max 0 ((planBottom rows - 2 + 1) - planSumHeightsSpec services region margin)

/-- Modelled from the spec: `gapRows = floor(leftover / gapCount)` with
`gapCount = labels.length - 1`. -/
def planGapRowsSpec (services : List (List Char)) (rows : ℤ)
    (region : MatrixRegion) (margin : ℤ) : ℤ :=
  if ((services.length : ℤ) - 1) > 0 then
    Int.fdiv (planLeftoverSpec services rows region margin)
      ((services.length : ℤ) - 1)
  else 0

/-- Modelled from the spec: the remainder `leftover mod gapCount`,
distributed one extra row at a time to the earliest gaps. -/
def planRemSpec (services : List (List Char)) (rows : ℤ)
    (region : MatrixRegion) (margin : ℤ) : ℤ :=
  if ((services.length : ℤ) - 1) > 0 then
    planLeftoverSpec services rows region margin % ((services.length : ℤ) - 1)
  else 0

/-- Modelled from the spec: label `i`'s base row before overflow
correction — the cursor after advancing past the `i` earlier labels, each
contributing its block height plus `gapRows` plus one extra row for the
earliest `rem` gaps. -/
def planRawBaseSpec (services : List (List Char)) (rows : ℤ)
    (region : MatrixRegion) (margin : ℤ) (i : ℕ) : ℤ :=
  2 + ∑ j ∈ Finset.range i,
    (planBlockHeightSpec (planMaxLineLen region margin) (services.getD j []) +
      planGapRowsSpec services rows region margin +
      (if (j : ℤ) < planRemSpec services rows region margin then 1 else 0))

/-- Modelled from the spec: the upward shift — the amount by which the last
label's bottom edge exceeds `bottom`, when positive. -/
def planShiftSpec (services : List (List Char)) (rows : ℤ)
    (region : MatrixRegion) (margin : ℤ) : ℤ :=
  max 0 (planRawBaseSpec services rows region margin (services.length - 1) +
    planBlockHeightSpec (planMaxLineLen region margin)
      (services.getD (services.length - 1) []) - 1 - planBottom rows)

/-- Modelled from the spec: label `i`'s final base row — the raw base row
decreased by the overflow shift but never below the top row 2. -/
def planBaseRowSpec (services : List (List Char)) (rows : ℤ)
    (region : MatrixRegion) (margin : ℤ) (i : ℕ) : ℤ :=
  max 2 (planRawBaseSpec services rows region margin i -
    planShiftSpec services rows region margin)

/-- A split's trimmed line list has two entries exactly when it wrapped. -/
theorem splitIntoTwoLines_take_two_length (s : List Char) (m : ℕ) :
    ((splitIntoTwoLines s m).lines.take 2).length = 2 ↔
      (splitIntoTwoLines s m).wrapped = true := by
  unfold splitIntoTwoLines
  by_cases h : s.length ≤ m <;> simp [h]

/-- The planner's block height matches the spec's wrapped-based height. -/
theorem planHeight_eq (services : List (List Char)) (region : MatrixRegion)
    (margin : ℤ) (j : ℕ) (hj : j < services.length) :
    ((planLineData services region margin).getD j ([], 0)).2 =
      planBlockHeightSpec (planMaxLineLen region margin) (services.getD j []) := by
  rw [planLineData_getD services region margin j hj]
  unfold planBlockHeightSpec
  by_cases hw : (splitIntoTwoLines (services.getD j [])
      (planMaxLineLen region margin)).wrapped = true
  · rw [if_pos ((splitIntoTwoLines_take_two_length _ _).mpr hw), if_pos hw]
  · rw [if_neg (fun hc => hw ((splitIntoTwoLines_take_two_length _ _).mp hc)),
      if_neg hw]

/-- The planner's summed block heights match the spec's sum. -/
theorem planSum_eq (services : List (List Char)) (region : MatrixRegion)
    (margin : ℤ) :
    ((planLineData services region margin).map (fun p => p.2)).sum =
      planSumHeightsSpec services region margin := by
  rw [map_sum_getD (fun p => p.2) ([], 0)]
  have hlen : (planLineData services region margin).length = services.length := by
    simp [planLineData]
  rw [hlen]
  exact Finset.sum_congr rfl
    (fun j hj => planHeight_eq services region margin j (Finset.mem_range.mp hj))

/-- The planner's clamped leftover matches the spec's leftover rows. -/
theorem planLeftover_eq (services : List (List Char)) (rows : ℤ)
    (region : MatrixRegion) (margin : ℤ) :
    planLeftover services rows region margin =
      planLeftoverSpec services rows region margin := by
  unfold planLeftover planLeftoverSpec planAvailable
  rw [planSum_eq]
  have h3 : 3 ≤ planBottom rows := le_max_left 3 (rows - 3)
  rw [max_eq_right (by omega : (0 : ℤ) ≤ planBottom rows - 2 + 1)]

/-- For a non-empty list the planner's gap count is `length - 1`. -/
theorem planGaps_eq (services : List (List Char)) (hne : services ≠ []) :
    planGaps services.length = (services.length : ℤ) - 1 := by
  have hn : 0 < services.length := List.length_pos.mpr hne
  have h1 : (1 : ℤ) ≤ (services.length : ℤ) := by exact_mod_cast hn
  unfold planGaps
  omega

/-- The planner's gap rows match the spec's. -/
theorem planGapRows_eq (services : List (List Char)) (rows : ℤ)
    (region : MatrixRegion) (margin : ℤ) (hne : services ≠ []) :
    planGapRows services rows region margin =
      planGapRowsSpec services rows region margin := by
  unfold planGapRows planGapRowsSpec
  rw [planGaps_eq services hne, planLeftover_eq]

/-- The planner's extra-row counter matches the spec's remainder. -/
theorem planExtra0_eq (services : List (List Char)) (rows : ℤ)
    (region : MatrixRegion) (margin : ℤ) (hne : services ≠ []) :
    planExtra0 services rows region margin =
      planRemSpec services rows region margin := by
  unfold planExtra0 planRemSpec
  rw [planGaps_eq services hne, planLeftover_eq]

/-- The loop's cursor closed form matches the spec's raw base row. -/
theorem planRawCursor_eq (services : List (List Char)) (rows : ℤ)
    (region : MatrixRegion) (margin : ℤ) (hne : services ≠ []) (k : ℕ)
    (hk : k ≤ services.length) :
    planRawCursor services rows region margin k =
      planRawBaseSpec services rows region margin k := by
  unfold planRawCursor planRawBaseSpec
  congr 1
  refine Finset.sum_congr rfl (fun j hj => ?_)
  have hj' : j < services.length := by
    have := Finset.mem_range.mp hj
    omega
  rw [planHeight_eq services region margin j hj',
    planGapRows_eq services rows region margin hne,
    planExtra0_eq services rows region margin hne]

/-- The spec's raw base row never lies above the top row 2. -/
theorem planRawBaseSpec_ge_two (services : List (List Char)) (rows : ℤ)
    (region : MatrixRegion) (margin : ℤ) (i : ℕ) :
    2 ≤ planRawBaseSpec services rows region margin i := by
  unfold planRawBaseSpec
  have hsum : 0 ≤ ∑ j ∈ Finset.range i,
      (planBlockHeightSpec (planMaxLineLen region margin) (services.getD j []) +
        planGapRowsSpec services rows region margin +
        (if (j : ℤ) < planRemSpec services rows region margin then 1 else 0)) := by
    refine Finset.sum_nonneg (fun j _ => ?_)
    have hh : 0 ≤ planBlockHeightSpec (planMaxLineLen region margin)
        (services.getD j []) := by
      unfold planBlockHeightSpec
      split_ifs <;> norm_num
    have hg : 0 ≤ planGapRowsSpec services rows region margin := by
      unfold planGapRowsSpec
      split_ifs with hgt
      · exact Int.fdiv_nonneg (le_max_left 0 _) (by omega)
      · exact le_refl 0
    have hb : (0 : ℤ) ≤ (if (j : ℤ) < planRemSpec services rows region margin
        then 1 else 0) := by
      split_ifs <;> norm_num
    omega
  omega

/-- C7: for every non-empty label list, `planServiceLayout` assigns each
label `i` the base row described by the spec: the cursor accumulated from
the top row 2 over the earlier labels' block heights (2 when the two-line
split wraps, else 1), the even gap `floor(leftover / gapCount)`, and one
extra row for the earliest `leftover mod gapCount` gaps; and when the last
label's bottom edge exceeds `bottom = max(3, rows - 3)`, every base row is
decreased by the overflow but never below the top row 2. -/
theorem planServiceLayout_rows_spec (services : List (List Char))
    (cols rows : ℤ) (region : MatrixRegion) (margin : ℤ)
    (hne : services ≠ []) :
    ∃ plan, planServiceLayout services cols rows region margin = some plan ∧
      plan.length = services.length ∧
      ∀ i, i < services.length →
        (plan.getD i ⟨[], 0⟩).baseRow =
          planBaseRowSpec services rows region margin i := by
  obtain ⟨plan, heq, hlen, _, hbase⟩ :=
    planServiceLayout_some services cols rows region margin hne
  have hn : 0 < services.length := List.length_pos.mpr hne
  have hovEq : planOverflow services rows region margin =
      planRawBaseSpec services rows region margin (services.length - 1) +
        planBlockHeightSpec (planMaxLineLen region margin)
          (services.getD (services.length - 1) []) - 1 - planBottom rows := by
    unfold planOverflow
    rw [planRawCursor_eq services rows region margin hne (services.length - 1)
        (by omega),
      planHeight_eq services region margin (services.length - 1) (by omega)]
  refine ⟨plan, heq, hlen, fun i hi => ?_⟩
  rw [hbase i hi]
  by_cases hov : planOverflow services rows region margin > 0
  · rw [if_pos hov,
      planRawCursor_eq services rows region margin hne i (le_of_lt hi)]
    have hsh : planShiftSpec services rows region margin =
        planOverflow services rows region margin := by
      unfold planShiftSpec
      rw [← hovEq]
      exact max_eq_right (by omega)
    unfold planBaseRowSpec
    rw [hsh]
  · rw [if_neg hov,
      planRawCursor_eq services rows region margin hne i (le_of_lt hi)]
    have hsh : planShiftSpec services rows region margin = 0 := by
      unfold planShiftSpec
      rw [← hovEq]
      exact max_eq_left (by omega)
    unfold planBaseRowSpec
    rw [hsh, sub_zero]
    exact (max_eq_right (planRawBaseSpec_ge_two services rows region margin i)).symm

/-- C7 (witness): the row-distribution characterization applied at two
concrete labels. -/
theorem planServiceLayout_rows_spec_witness :
    ([['A'], ['B']] : List (List Char)) ≠ [] ∧
    ∃ plan, planServiceLayout [['A'], ['B']] 10 20 ⟨0, 9⟩ 1 = some plan ∧
      plan.length = 2 ∧
      ∀ i, i < 2 →
        (plan.getD i ⟨[], 0⟩).baseRow =
          planBaseRowSpec [['A'], ['B']] 20 ⟨0, 9⟩ 1 i :=
  ⟨by simp,
    by simpa using
      planServiceLayout_rows_spec [['A'], ['B']] 10 20 ⟨0, 9⟩ 1 (by simp)⟩
